import Mathlib

/-!
# Verification of `rtm` `vector4d.h` (double-precision SIMD vector library)

Shallow embedding of the `vector4d` operations of `src/includes/rtm/vector4d.h`
over an executable model of IEEE-754 binary64 arithmetic.

The header selects one of several compile-time backends per function.  We embed
the `RTM_SSE2_INTRINSICS` code path (the plain-SSE2 branch, without SSE4/AVX),
which is the branch whose algorithm is written out in full, bit by bit, in the
header itself; the scalar fallback delegates to `scalar_*` functions that live
in a header not present under `src/`.

A binary64 datum is modelled as NaN, a signed infinity, or a signed finite
magnitude (a nonnegative rational).  NaN payloads and the NaN sign bit are
collapsed into the single constructor `Fp.nan`; all operations embedded here
are payload-oblivious.  Signed zeros are kept: `Fp.fin false 0` is `+0.0` and
`Fp.fin true 0` is `-0.0`.
-/

namespace RTM

/-- A binary64 datum: NaN (payload collapsed), signed infinity, or a signed
finite magnitude.  `sign = true` means negative.  The magnitude of a
well-formed datum is a representable nonnegative binary64 magnitude. -/
inductive Fp where
  | nan : Fp
  | inf : Bool → Fp
  | fin : Bool → ℚ → Fp
deriving DecidableEq, Repr

namespace Fp

/-! The library addition, subtraction, multiplication and inverse on `ℚ` are
`@[irreducible]`, which blocks kernel evaluation of concrete instances.  The
executable definitions below therefore route rational arithmetic through
`Rat.divInt` (which does evaluate); the `q*_eq` bridge lemmas identify them
with the standard operations for use in proofs. -/

/-- Executable rational addition. -/
def qadd (a b : ℚ) : ℚ :=
  Rat.divInt (a.num * (b.den : ℤ) + b.num * (a.den : ℤ)) ((a.den : ℤ) * (b.den : ℤ))

/-- Executable rational subtraction. -/
def qsub (a b : ℚ) : ℚ := qadd a (-b)

/-- Executable rational multiplication. -/
def qmul (a b : ℚ) : ℚ := Rat.divInt (a.num * b.num) ((a.den : ℤ) * (b.den : ℤ))

/-- Executable rational division (`0` on a zero divisor, as in the library). -/
def qdiv (a b : ℚ) : ℚ := Rat.divInt (a.num * (b.den : ℤ)) ((a.den : ℤ) * b.num)

/-- Executable rational one half. -/
def qhalf : ℚ := Rat.divInt 1 2

/-- `2^e` as a rational, for an arbitrary integer exponent. -/
def pow2 (e : ℤ) : ℚ :=
  if 0 ≤ e then ((2 ^ e.toNat : ℕ) : ℚ) else Rat.divInt 1 ((2 ^ (-e).toNat : ℕ) : ℤ)

/-- Fuel-driven floor base-2 logarithm on naturals, structurally recursive so
that the kernel can evaluate it (fuel of at least `n` suffices). -/
def natLog2F : ℕ → ℕ → ℕ
  | 0, _ => 0
  | f + 1, n => if 2 ≤ n then natLog2F f (n / 2) + 1 else 0

/-- Floor base-2 logarithm on naturals (`0` on `n = 0`). -/
def natLog2 (n : ℕ) : ℕ := natLog2F n n

/-- Floor of a rational as an integer (`q.den` is always positive). -/
def ratFloor (q : ℚ) : ℤ := Int.fdiv q.num (q.den : ℤ)

/-- Floor of the base-2 logarithm of a positive rational: the unique `e` with
`2^e ≤ q < 2^(e+1)` (junk on `q ≤ 0`). -/
def ilog2q (q : ℚ) : ℤ :=
  let a : ℤ := (natLog2 q.num.natAbs : ℤ)
  let b : ℤ := (natLog2 q.den : ℤ)
  if pow2 (a - b) ≤ q then a - b else a - b - 1

/-- Round a rational to the nearest integer, ties to even (the IEEE-754
default rounding attribute). -/
def roundNEInt (q : ℚ) : ℤ :=
  let f : ℤ := ratFloor q
  let r : ℚ := qsub q (f : ℚ)
  if r < qhalf then f
  else if qhalf < r then f + 1
  else if f % 2 = 0 then f else f + 1

/-- Round a positive rational to the binary64 grid (round to nearest, ties to
even), returning a nonnegative finite datum, or `+∞` on overflow.  Subnormal
magnitudes are rounded on the fixed subnormal grid `2^(-1074)`; magnitudes
rounding to `2^1024` or beyond overflow to infinity. -/
def roundPos (q : ℚ) : Fp :=
  let e := ilog2q q
  let ee := max e (-1022)
  let scale := pow2 (ee - 52)
  let n := roundNEInt (qdiv q scale)
  let mag := qmul (n : ℚ) scale
  if pow2 1024 ≤ mag then .inf false else .fin false mag

/-- Negation: flips the sign bit (pure bit operation, total). -/
def fpNeg : Fp → Fp
  | .nan => .nan
  | .inf s => .inf (!s)
  | .fin s q => .fin (!s) q

/-- Round a signed exact rational result to binary64.  An exact zero rounds to
`+0.0` (the round-to-nearest-even convention); nonzero values round by
magnitude with the sign carried through. -/
def roundQ (x : ℚ) : Fp :=
  if x = 0 then .fin false 0
  else if 0 < x then roundPos x
  else fpNeg (roundPos (-x))

/-- The signed rational value of a finite datum (junk `0` on NaN/infinity). -/
def toQ : Fp → ℚ
  | .fin s q => if s then -q else q
  | _ => 0

/-- Is this datum NaN?  (`_mm_cmpneq_pd(x, x)` in the source.) -/
def isNan : Fp → Bool
  | .nan => true
  | _ => false

/-- Is this datum a (signed) infinity? -/
def isInf : Fp → Bool
  | .inf _ => true
  | _ => false

/-- Is this datum finite? -/
def isFinite : Fp → Bool
  | .fin _ _ => true
  | _ => false

/-- The sign bit, as stored (`_mm_and_pd` with `-0.0`).  The NaN sign bit is
collapsed to `false`; no embedded operation observes it. -/
def signBit : Fp → Bool
  | .nan => false
  | .inf s => s
  | .fin s _ => s

/-- Clearing the sign bit (`_mm_and_pd` with the `0x7FFF...` `abs_mask` of the
source): a pure bit operation, mapping NaN to NaN and `±x` to `+x`. -/
def absBits : Fp → Fp
  | .nan => .nan
  | .inf _ => .inf false
  | .fin _ q => .fin false q

/-- IEEE-754 ordered less-than (`_mm_cmplt_pd`): false on any NaN operand,
`-0.0 < +0.0` is false. -/
def fpLt : Fp → Fp → Bool
  | .nan, _ => false
  | _, .nan => false
  | .inf s, .inf t => s && !t
  | .inf s, .fin _ _ => s
  | .fin _ _, .inf t => !t
  | .fin s a, .fin t b => decide ((if s then -a else a) < (if t then -b else b))

/-- IEEE-754 ordered less-or-equal (`_mm_cmple_pd`): false on any NaN operand,
`-0.0 <= +0.0` is true. -/
def fpLe : Fp → Fp → Bool
  | .nan, _ => false
  | _, .nan => false
  | .inf s, .inf t => s || !t
  | .inf s, .fin _ _ => s
  | .fin _ _, .inf t => !t
  | .fin s a, .fin t b => decide ((if s then -a else a) ≤ (if t then -b else b))

/-- IEEE-754 ordered greater-than (`_mm_cmpgt_pd(a, b)`, i.e. `b < a`). -/
def fpGt (x y : Fp) : Bool := fpLt y x

/-- IEEE-754 ordered greater-or-equal (`_mm_cmpge_pd(a, b)`, i.e. `b <= a`). -/
def fpGe (x y : Fp) : Bool := fpLe y x

/-- IEEE-754 equality (`==`): false on any NaN operand, `+0.0 == -0.0`. -/
def fpEq : Fp → Fp → Bool
  | .nan, _ => false
  | _, .nan => false
  | .inf s, .inf t => s == t
  | .inf _, .fin _ _ => false
  | .fin _ _, .inf _ => false
  | .fin s a, .fin t b => decide ((if s then -a else a) = (if t then -b else b))

/-- IEEE-754 addition (`_mm_add_pd`, one lane): NaN propagates, opposite
infinities give NaN, and an exact zero sum is `+0.0` except that two like-signed
zero operands keep their sign (`(-0)+(-0) = -0`). -/
def fpAdd : Fp → Fp → Fp
  | .nan, _ => .nan
  | _, .nan => .nan
  | .inf s, .inf t => if s = t then .inf s else .nan
  | .inf s, .fin _ _ => .inf s
  | .fin _ _, .inf t => .inf t
  | .fin s a, .fin t b =>
    let x : ℚ := qadd (if s then -a else a) (if t then -b else b)
    if x = 0 then .fin (s && t) 0 else roundQ x

/-- IEEE-754 subtraction (`_mm_sub_pd`, one lane): `x - y = x + (-y)`. -/
def fpSub (x y : Fp) : Fp := fpAdd x (fpNeg y)

/-- Attach a sign to a nonnegative result produced by `roundPos`. -/
def withSign (s : Bool) : Fp → Fp
  | .nan => .nan
  | .inf _ => .inf s
  | .fin _ q => .fin s q

/-- IEEE-754 multiplication (`_mm_mul_pd`, one lane): NaN propagates,
`0 * ±∞ = NaN`, the result sign is always the XOR of the operand signs
(zero and infinite results included). -/
def fpMul : Fp → Fp → Fp
  | .nan, _ => .nan
  | _, .nan => .nan
  | .inf s, .inf t => .inf (s != t)
  | .inf s, .fin t q => if q = 0 then .nan else .inf (s != t)
  | .fin s q, .inf t => if q = 0 then .nan else .inf (s != t)
  | .fin s a, .fin t b =>
    if a = 0 || b = 0 then .fin (s != t) 0
    else withSign (s != t) (roundPos (qmul a b))

/-- IEEE-754 division (`_mm_div_pd`, one lane): `0/0` and `∞/∞` are NaN,
`x/0 = ±∞` for nonzero `x`, `x/∞ = ±0`; otherwise correctly rounded. -/
def fpDiv : Fp → Fp → Fp
  | .nan, _ => .nan
  | _, .nan => .nan
  | .inf _, .inf _ => .nan
  | .inf s, .fin t _ => .inf (s != t)
  | .fin s _, .inf t => .fin (s != t) 0
  | .fin s a, .fin t b =>
    if b = 0 then (if a = 0 then .nan else .inf (s != t))
    else if a = 0 then .fin (s != t) 0
    else withSign (s != t) (roundPos (qdiv a b))

/-- Fuel-driven Newton iteration for the integer square root, structurally
recursive so that the kernel can evaluate it. -/
def natSqrtF : ℕ → ℕ → ℕ → ℕ
  | 0, _, x => x
  | f + 1, n, x =>
    let y := (x + n / x) / 2
    if y < x then natSqrtF f n y else x

/-- Integer square root `⌊√n⌋` (Newton iteration from `n`). -/
def natSqrt (n : ℕ) : ℕ := if n ≤ 1 then n else natSqrtF n n n

/-- Round the square root of a positive rational to the binary64 grid (round
to nearest, ties to even).  The root of a positive binary64 magnitude is
always in the normal range, so no subnormal or overflow handling arises. -/
def roundSqrt (q : ℚ) : Fp :=
  let e := ilog2q q
  let f : ℤ := if e % 2 = 0 then e / 2 else (e - 1) / 2
  let R : ℚ := qdiv q (pow2 (2 * f - 104))
  let m : ℕ := (ratFloor R).toNat
  let k : ℕ := natSqrt m
  let half : ℚ := qadd (k : ℚ) qhalf
  let n : ℤ :=
    if R < qmul half half then (k : ℤ)
    else if qmul half half < R then (k : ℤ) + 1
    else if k % 2 = 0 then (k : ℤ) else (k : ℤ) + 1
  .fin false (qmul (n : ℚ) (pow2 (f - 52)))

/-- Modelled from the spec: `scalar_sqrt` (its header is not under `src/`).
The spec defines `vector_length[3]` as the square root of the squared length;
IEEE-754 square root is correctly rounded, `sqrt(-0) = -0`, `sqrt(x) = NaN`
for `x < 0`, and `sqrt(+∞) = +∞`. -/
def fpSqrt : Fp → Fp
  | .nan => .nan
  | .inf s => if s then .nan else .inf false
  | .fin s q =>
    if q = 0 then .fin s 0
    else if s then .nan
    else roundSqrt q

/-- Modelled from the spec: `scalar_sqrt_reciprocal` (its header is not under
`src/`).  The spec defines `vector_length_reciprocal` as
`1/sqrt(length_squared)`, the reciprocal of the square root. -/
def fpSqrtReciprocal (x : Fp) : Fp := fpDiv (.fin false 1) (fpSqrt x)

/-- `_mm_cvtpd_epi32`, one lane: convert to a 32-bit signed integer using the
current (round-to-nearest-even) rounding mode.  NaN and results out of the
`int32` range produce the "integer indefinite" value `0x80000000 = -2^31`. -/
def cvtpd_epi32 (x : Fp) : ℤ :=
  match x with
  | .nan => -(2 ^ 31)
  | .inf _ => -(2 ^ 31)
  | .fin s q =>
    let n := roundNEInt (if s then -q else q)
    if n < -(2 ^ 31) ∨ 2 ^ 31 - 1 < n then -(2 ^ 31) else n

/-- `_mm_cvttpd_epi32`, one lane: convert to a 32-bit signed integer with
truncation toward zero; NaN and out-of-range results give `-2^31`. -/
def cvttpd_epi32 (x : Fp) : ℤ :=
  match x with
  | .nan => -(2 ^ 31)
  | .inf _ => -(2 ^ 31)
  | .fin s q =>
    let n : ℤ := if s then -(ratFloor q) else ratFloor q
    if n < -(2 ^ 31) ∨ 2 ^ 31 - 1 < n then -(2 ^ 31) else n

/-- `_mm_cvtepi32_pd`, one lane: every `int32` is exactly representable;
`0` converts to `+0.0`. -/
def cvtepi32_pd (n : ℤ) : Fp :=
  if n < 0 then .fin true ((-n : ℤ) : ℚ) else .fin false ((n : ℤ) : ℚ)

end Fp

open Fp

/-- The `vector4d` value type: four binary64 lanes `x y z w`. -/
structure Vec4 where
  x : Fp
  y : Fp
  z : Fp
  w : Fp
deriving DecidableEq, Repr

/-- The `mask4d` comparison-result type.  A lane of the hardware mask is
all-ones or all-zeros; we record it as a `Bool` per lane. -/
structure Mask4 where
  x : Bool
  y : Bool
  z : Bool
  w : Bool
deriving DecidableEq, Repr

/-- Lane accessor, `0,1,2,3 = x,y,z,w`. -/
def Vec4.get (v : Vec4) (i : Fin 4) : Fp :=
  if i.val = 0 then v.x else if i.val = 1 then v.y else if i.val = 2 then v.z else v.w

/-- `vector_set(xyzw)` broadcast form: all four lanes equal. -/
def vector_set (s : Fp) : Vec4 := ⟨s, s, s, s⟩

/-- `vector_zero()`. -/
def vector_zero : Vec4 := ⟨.fin false 0, .fin false 0, .fin false 0, .fin false 0⟩

/-- `vector_add`: per-component IEEE addition. -/
def vector_add (lhs rhs : Vec4) : Vec4 :=
  ⟨fpAdd lhs.x rhs.x, fpAdd lhs.y rhs.y, fpAdd lhs.z rhs.z, fpAdd lhs.w rhs.w⟩

/-- `vector_sub`: per-component IEEE subtraction. -/
def vector_sub (lhs rhs : Vec4) : Vec4 :=
  ⟨fpSub lhs.x rhs.x, fpSub lhs.y rhs.y, fpSub lhs.z rhs.z, fpSub lhs.w rhs.w⟩

/-- `vector_mul`: per-component IEEE multiplication. -/
def vector_mul (lhs rhs : Vec4) : Vec4 :=
  ⟨fpMul lhs.x rhs.x, fpMul lhs.y rhs.y, fpMul lhs.z rhs.z, fpMul lhs.w rhs.w⟩

/-- `vector_mul(vector4d, double)`: broadcast the scalar, then multiply. -/
def vector_mul_s (lhs : Vec4) (rhs : Fp) : Vec4 := vector_mul lhs (vector_set rhs)

/-- `vector_max`: `_mm_max_pd(lhs, rhs)` returns `lhs` if `lhs > rhs`
(ordered), otherwise `rhs` — so a NaN in `lhs` yields `rhs`'s lane bits and a
NaN in `rhs` yields NaN. -/
def fpMax (a b : Fp) : Fp := if fpGt a b then a else b

/-- `vector_min`: `_mm_min_pd(lhs, rhs)` returns `lhs` if `lhs < rhs`
(ordered), otherwise `rhs`. -/
def fpMin (a b : Fp) : Fp := if fpLt a b then a else b

/-- `vector_max`, per-component. -/
def vector_max (lhs rhs : Vec4) : Vec4 :=
  ⟨fpMax lhs.x rhs.x, fpMax lhs.y rhs.y, fpMax lhs.z rhs.z, fpMax lhs.w rhs.w⟩

/-- `vector_min`, per-component. -/
def vector_min (lhs rhs : Vec4) : Vec4 :=
  ⟨fpMin lhs.x rhs.x, fpMin lhs.y rhs.y, fpMin lhs.z rhs.z, fpMin lhs.w rhs.w⟩

/-- `vector_clamp(input, min_value, max_value) =
min(max_value, max(min_value, input))`, exactly as in the source. -/
def vector_clamp (input min_value max_value : Vec4) : Vec4 :=
  vector_min max_value (vector_max min_value input)

/-- One lane of the SSE2 `vector_ceil`: keep the input when `|x| >= 2^52`
(which is also true for infinities) or when `x` is NaN; otherwise round-trip
through `int32` (round-to-nearest) and subtract a `-1.0` bias when the
truncated value fell below the input. -/
def ceil1 (x : Fp) : Fp :=
  let is_large := fpGe (absBits x) (.fin false (pow2 52))
  let is_nan := isNan x
  let use_original := is_large || is_nan
  let integer_part := cvtepi32_pd (cvtpd_epi32 x)
  let is_positive := fpLt integer_part x
  let bias : Fp := if is_positive then .fin true 1 else .fin false 0
  let corrected := fpSub integer_part bias
  if use_original then x else corrected

/-- `vector_ceil` (SSE2 branch), per-component. -/
def vector_ceil (input : Vec4) : Vec4 :=
  ⟨ceil1 input.x, ceil1 input.y, ceil1 input.z, ceil1 input.w⟩

/-- One lane of the SSE2 `vector_floor`: same structure as `ceil1`, but the
bias is `-1.0` when the truncated value exceeds the input, and it is added. -/
def floor1 (x : Fp) : Fp :=
  let is_large := fpGe (absBits x) (.fin false (pow2 52))
  let is_nan := isNan x
  let use_original := is_large || is_nan
  let integer_part := cvtepi32_pd (cvtpd_epi32 x)
  let is_negative := fpGt integer_part x
  let bias : Fp := if is_negative then .fin true 1 else .fin false 0
  let corrected := fpAdd integer_part bias
  if use_original then x else corrected

/-- `vector_floor` (SSE2 branch), per-component. -/
def vector_floor (input : Vec4) : Vec4 :=
  ⟨floor1 input.x, floor1 input.y, floor1 input.z, floor1 input.w⟩

/-- One lane of the SSE2 `vector_round_symmetric`: bias by `±0.5` (sign bit
copied from the input by `_mm_or_pd`), truncate through `int32`, and keep the
original input for NaN or `|x| >= 2^52`. -/
def round_symmetric1 (x : Fp) : Fp :=
  let is_large := fpGe (absBits x) (.fin false (pow2 52))
  let is_nan := isNan x
  let use_original := is_large || is_nan
  let bias : Fp := .fin (signBit x) qhalf
  let biased := fpAdd x bias
  let integer_part := cvtepi32_pd (cvttpd_epi32 biased)
  if use_original then x else integer_part

/-- `vector_round_symmetric` (SSE2 branch), per-component. -/
def vector_round_symmetric (input : Vec4) : Vec4 :=
  ⟨round_symmetric1 input.x, round_symmetric1 input.y,
   round_symmetric1 input.z, round_symmetric1 input.w⟩

/-- One lane of the SSE2 `vector_round_bankers`: add and subtract a `2^52`
magic constant carrying the input's sign bit, letting the hardware's
round-to-nearest-even collapse the fraction; keep the input when
`|x| >= 2^52` (infinities included — NaN falls through the arithmetic and
propagates by itself). -/
def round_bankers1 (x : Fp) : Fp :=
  let offset : Fp := .fin (signBit x) (pow2 52)
  let integer_part := fpSub (fpAdd x offset) offset
  let is_large := fpGe (absBits x) (.fin false (pow2 52))
  if is_large then x else integer_part

/-- `vector_round_bankers` (SSE2 branch), per-component. -/
def vector_round_bankers (input : Vec4) : Vec4 :=
  ⟨round_bankers1 input.x, round_bankers1 input.y,
   round_bankers1 input.z, round_bankers1 input.w⟩

/-- `vector_dot3` / `vector_length_squared3` as a `double` (SSE2 branch):
`(x*x' + y*y') + z*z'`, with the pairwise products taken first and the `x,y`
pair summed before the `z` term is added. -/
def vector_dot3 (lhs rhs : Vec4) : Fp :=
  fpAdd (fpAdd (fpMul lhs.x rhs.x) (fpMul lhs.y rhs.y)) (fpMul lhs.z rhs.z)

/-- `vector_length_squared3(input) = vector_dot3(input, input)`. -/
def vector_length_squared3 (input : Vec4) : Fp := vector_dot3 input input

/-- `vector_length3(input)`, read back as a `double`:
`sqrt(length_squared3)`. -/
def vector_length3 (input : Vec4) : Fp := fpSqrt (vector_length_squared3 input)

/-- `vector_distance3(lhs, rhs)`, read back as a `double`:
`length3(lhs - rhs)`. -/
def vector_distance3 (lhs rhs : Vec4) : Fp := vector_length3 (vector_sub lhs rhs)

/-- The two-argument-plus-threshold overload of `vector_normalize3`: when
`length_squared3(input) >= threshold` normalize with the reciprocal square
root, else return the fallback unchanged. -/
def vector_normalize3_fb (input fallback : Vec4) (threshold : Fp) : Vec4 :=
  let len_sq := vector_length_squared3 input
  if fpGe len_sq threshold then vector_mul_s input (fpSqrtReciprocal len_sq)
  else fallback

/-- The default `threshold = 1.0E-8` argument of the safe `vector_normalize3`:
the C++ decimal literal denotes the nearest binary64 value. -/
def normalize3_default_threshold : Fp := roundQ (Rat.divInt 1 100000000)

/-- `vector_greater_equal`: per-component ordered `>=` mask. -/
def vector_greater_equal (lhs rhs : Vec4) : Mask4 :=
  ⟨fpGe lhs.x rhs.x, fpGe lhs.y rhs.y, fpGe lhs.z rhs.z, fpGe lhs.w rhs.w⟩

/-- `vector_select(mask, if_true, if_false)`: branchless per-lane bit select;
with all-ones/all-zeros mask lanes this picks `if_true`'s or `if_false`'s
lane wholesale. -/
def vector_select (mask : Mask4) (if_true if_false : Vec4) : Vec4 :=
  ⟨if mask.x then if_true.x else if_false.x,
   if mask.y then if_true.y else if_false.y,
   if mask.z then if_true.z else if_false.z,
   if mask.w then if_true.w else if_false.w⟩

/-- `vector_sign(input)`: `input >= 0.0 ? 1.0 : -1.0`, built from the
`vector_greater_equal` mask and `vector_select`, exactly as in the source. -/
def vector_sign (input : Vec4) : Vec4 :=
  let mask := vector_greater_equal input vector_zero
  vector_select mask (vector_set (.fin false 1)) (vector_set (.fin true 1))

/-- `vector_all_less_than(lhs, rhs)`: the SSE2 branch combines `_mm_cmplt_pd`
movemasks so that the result is true exactly when all four ordered `<`
comparisons hold. -/
def vector_all_less_than (lhs rhs : Vec4) : Bool :=
  fpLt lhs.x rhs.x && fpLt lhs.y rhs.y && fpLt lhs.z rhs.z && fpLt lhs.w rhs.w

/-- `vector_any_greater_equal(lhs, rhs)`: true exactly when at least one of
the four ordered `>=` comparisons holds. -/
def vector_any_greater_equal (lhs rhs : Vec4) : Bool :=
  fpGe lhs.x rhs.x || fpGe lhs.y rhs.y || fpGe lhs.z rhs.z || fpGe lhs.w rhs.w

/-- `vector_mul_add(v0, v1, v2) = (v0 * v1) + v2` (non-FMA form, as in the
source: `vector_add(vector_mul(v0, v1), v2)`). -/
def vector_mul_add (v0 v1 v2 : Vec4) : Vec4 := vector_add (vector_mul v0 v1) v2

/-- `vector_mul_add` with a broadcast scalar second operand. -/
def vector_mul_add_s (v0 : Vec4) (s1 : Fp) (v2 : Vec4) : Vec4 :=
  vector_add (vector_mul_s v0 s1) v2

/-- `vector_neg_mul_sub(v0, s1, v2) = v2 - (v0 * s1)` with a broadcast scalar
second operand. -/
def vector_neg_mul_sub_s (v0 : Vec4) (s1 : Fp) (v2 : Vec4) : Vec4 :=
  vector_sub v2 (vector_mul_s v0 s1)

/-- `vector_lerp(start, end, alpha)`: implemented in the source as
`vector_mul_add(end, alpha, vector_neg_mul_sub(start, alpha, start))`, i.e.
`(end * alpha) + (start - start * alpha)` per lane. -/
def vector_lerp (start finish : Vec4) (alpha : Fp) : Vec4 :=
  vector_mul_add_s finish alpha (vector_neg_mul_sub_s start alpha start)

/-- A lane value covered by the edge-case passthrough policy: NaN, an
infinity, or a finite magnitude of at least `2^52`. -/
def fpSpecial (x : Fp) : Bool :=
  match x with
  | .fin _ q => decide (pow2 52 ≤ q)
  | _ => true

/-- A finite datum whose magnitude the binary64 grid reproduces exactly:
rounding its magnitude returns it unchanged.  NaN and infinities are also
well-formed data. -/
def fpRep : Fp → Bool
  | .fin _ q => decide (roundQ q = .fin false q)
  | _ => true

/-- A finite, representable binary64 datum. -/
def finiteRep (x : Fp) : Bool := x.isFinite && fpRep x

/-- All four lanes finite and representable. -/
def vecFiniteRep (v : Vec4) : Bool :=
  finiteRep v.x && finiteRep v.y && finiteRep v.z && finiteRep v.w

/-! ## Ordered-comparison lemmas -/

theorem fpLt_isNan_false {x y : Fp} (h : fpLt x y = true) :
    x.isNan = false ∧ y.isNan = false := by
  cases x <;> cases y <;> simp_all [fpLt, Fp.isNan]

theorem fpLt_eq_not_fpLe {x y : Fp} (hx : x.isNan = false) (hy : y.isNan = false) :
    fpLt x y = !fpLe y x := by
  cases x with
  | nan => simp [Fp.isNan] at hx
  | inf s =>
    cases y with
    | nan => simp [Fp.isNan] at hy
    | inf t => cases s <;> cases t <;> rfl
    | fin t b => cases s <;> rfl
  | fin s a =>
    cases y with
    | nan => simp [Fp.isNan] at hy
    | inf t => cases t <;> rfl
    | fin t b => simp [fpLt, fpLe, ← decide_not, not_le]

theorem fpLt_trans_fpLe {a b c : Fp} (h1 : fpLt a b = true) (h2 : fpLe b c = true) :
    fpLt a c = true := by
  cases a <;> cases b <;> cases c <;> simp_all [fpLt, fpLe]
  exact lt_of_lt_of_le h1 h2

/-! ## C1: edge-case passthrough for ceil / floor / round_bankers -/

theorem ceil1_special {x : Fp} (h : fpSpecial x = true) : ceil1 x = x := by
  cases x with
  | nan => rfl
  | inf s => cases s <;> rfl
  | fin s q =>
    have hq : fpGe (absBits (Fp.fin s q)) (.fin false (pow2 52)) = true := by
      simpa [absBits, fpGe, fpLe] using (by simpa [fpSpecial] using h : pow2 52 ≤ q)
    simp [ceil1, hq]

theorem floor1_special {x : Fp} (h : fpSpecial x = true) : floor1 x = x := by
  cases x with
  | nan => rfl
  | inf s => cases s <;> rfl
  | fin s q =>
    have hq : fpGe (absBits (Fp.fin s q)) (.fin false (pow2 52)) = true := by
      simpa [absBits, fpGe, fpLe] using (by simpa [fpSpecial] using h : pow2 52 ≤ q)
    simp [floor1, hq]

theorem round_bankers1_special {x : Fp} (h : fpSpecial x = true) :
    round_bankers1 x = x := by
  cases x with
  | nan => rfl
  | inf s => cases s <;> rfl
  | fin s q =>
    have hq : fpGe (absBits (Fp.fin s q)) (.fin false (pow2 52)) = true := by
      simpa [absBits, fpGe, fpLe] using (by simpa [fpSpecial] using h : pow2 52 ≤ q)
    simp [round_bankers1, hq]

/-- C1: for every lane value that is NaN, `+∞`, `-∞`, or finite with magnitude
at least `2^52`, `vector_ceil`, `vector_floor`, and `vector_round_bankers`
return that lane unchanged. -/
theorem rounding_family_pass_through_special (v : Vec4) (i : Fin 4)
    (h : fpSpecial (v.get i) = true) :
    (vector_ceil v).get i = v.get i ∧ (vector_floor v).get i = v.get i ∧
      (vector_round_bankers v).get i = v.get i := by
  fin_cases i <;>
    exact ⟨ceil1_special h, floor1_special h, round_bankers1_special h⟩

/-- Witness for C1 at the concrete lane value `+∞`. -/
theorem rounding_family_pass_through_special_witness :
    (vector_ceil ⟨.inf false, .fin false 0, .fin false 0, .fin false 0⟩).get 0 = .inf false ∧
      (vector_floor ⟨.inf false, .fin false 0, .fin false 0, .fin false 0⟩).get 0 = .inf false ∧
      (vector_round_bankers ⟨.inf false, .fin false 0, .fin false 0, .fin false 0⟩).get 0
        = .inf false :=
  rounding_family_pass_through_special
    ⟨.inf false, .fin false 0, .fin false 0, .fin false 0⟩ 0 (by decide)

/-! ## C2: the rounding identity `floor(x) <= x <= ceil(x)` breaks on the
SSE2 branch for finite `|x|` in `[2^31, 2^52)` -/

set_option maxRecDepth 100000 in
/-- C2 (bug evidence): on the SSE2 branch the `int32` round-trip saturates to
the indefinite value `-2^31` for `|x| >= 2^31`, so `vector_ceil(2^31)` returns
`-2147483647.0`, strictly below its input, and `vector_floor(-2147483650.0)`
returns `-2147483649.0`, strictly above its input — contradicting the
functions' own doc comments and the spec identity
`vector_floor(x) <= x <= vector_ceil(x)`. -/
theorem ceil_floor_int32_saturation_bug :
    (vector_ceil ⟨.fin false (pow2 31), .fin false 0, .fin false 0, .fin false 0⟩).x
        = .fin true 2147483647 ∧
      fpLt ((vector_ceil ⟨.fin false (pow2 31), .fin false 0, .fin false 0,
          .fin false 0⟩).x) (.fin false (pow2 31)) = true ∧
      (vector_floor ⟨.fin true 2147483650, .fin false 0, .fin false 0, .fin false 0⟩).x
        = .fin true 2147483649 ∧
      fpGt ((vector_floor ⟨.fin true 2147483650, .fin false 0, .fin false 0,
          .fin false 0⟩).x) (.fin true 2147483650) = true := by
  refine ⟨by decide, by decide, by decide, by decide⟩

/-! ## C3: banker's rounding at the half-way points -/

set_option maxRecDepth 100000 in
/-- C3: `vector_round_bankers(2.5, 1.5, -2.5, -1.5) = (2, 2, -2, -2)` —
round half to even on each lane. -/
theorem round_bankers_half_to_even :
    vector_round_bankers
        ⟨.fin false (Rat.divInt 5 2), .fin false (Rat.divInt 3 2), .fin true (Rat.divInt 5 2), .fin true (Rat.divInt 3 2)⟩
      = ⟨.fin false 2, .fin false 2, .fin true 2, .fin true 2⟩ := by
  decide

/-! ## C4: symmetric rounding (half away from zero) -/

set_option maxRecDepth 100000 in
/-- C4: `vector_round_symmetric(1.5, -1.5, 1.2, -1.2) = (2, -2, 1, -1)` —
round half away from zero on each lane (the literal `1.2` denotes the nearest
binary64 value `5404319552844595 * 2^-52`). -/
theorem round_symmetric_half_away_from_zero :
    vector_round_symmetric
        ⟨.fin false (Rat.divInt 3 2), .fin true (Rat.divInt 3 2),
         .fin false (Rat.divInt 5404319552844595 4503599627370496),
         .fin true (Rat.divInt 5404319552844595 4503599627370496)⟩
      = ⟨.fin false 2, .fin true 2, .fin false 1, .fin true 1⟩ := by
  decide

/-! ## C5: clamp as min-after-max -/

theorem fpMin_fpMax_resolves_hi {lo hi x : Fp} (h : fpGt lo hi = true)
    (hx : x.isNan = false) : fpMin hi (fpMax lo x) = hi := by
  have hlo : lo.isNan = false := (fpLt_isNan_false (show fpLt hi lo = true from h)).2
  unfold fpMax
  by_cases hgt : fpGt lo x = true
  · rw [if_pos hgt]
    unfold fpMin
    rw [if_pos (show fpLt hi lo = true from h)]
  · rw [if_neg hgt]
    have hxlo : fpLe lo x = true := by
      have hlt := fpLt_eq_not_fpLe (x := x) (y := lo) hx hlo
      have hfalse : fpLt x lo = false := Bool.not_eq_true _ ▸ hgt
      rw [hfalse] at hlt
      simpa using hlt.symm
    have hhx : fpLt hi x = true :=
      fpLt_trans_fpLe (show fpLt hi lo = true from h) hxlo
    unfold fpMin
    rw [if_pos hhx]

/-- C5 (amended): `vector_clamp(input, lo, hi)` is exactly
`vector_min(hi, vector_max(lo, input))` with `max` applied first, and whenever
`lo > hi` in a lane and that lane of the input is not NaN, the result of that
lane is `hi`.  (A NaN input lane propagates NaN instead — see the
counterexample.) -/
theorem clamp_is_min_max_and_resolves_to_hi :
    (∀ input lo hi : Vec4, vector_clamp input lo hi = vector_min hi (vector_max lo input)) ∧
      (∀ (input lo hi : Vec4) (i : Fin 4), fpGt (lo.get i) (hi.get i) = true →
        (input.get i).isNan = false →
        (vector_clamp input lo hi).get i = hi.get i) := by
  refine ⟨fun _ _ _ => rfl, fun input lo hi i h hx => ?_⟩
  fin_cases i <;> exact fpMin_fpMax_resolves_hi h hx

/-- C5 counterexample: with `lo = 1 > hi = 0` but a NaN input lane, the
clamped lane is NaN, not `hi` — the unrestricted claim fails. -/
theorem clamp_nan_lane_not_hi :
    fpGt (Fp.fin false 1) (Fp.fin false 0) = true ∧
      (vector_clamp ⟨.nan, .fin false 0, .fin false 0, .fin false 0⟩
          (vector_set (.fin false 1)) (vector_set (.fin false 0))).x
        = Fp.nan ∧
      Fp.nan ≠ Fp.fin false 0 := by
  exact ⟨by decide, by decide, by decide⟩

/-- Witness for C5 at concrete values (`input = 5`, `lo = 1`, `hi = 0`). -/
theorem clamp_is_min_max_and_resolves_to_hi_witness :
    (vector_clamp (vector_set (.fin false 5)) (vector_set (.fin false 1))
        (vector_set (.fin false 0))).get 0 = (vector_set (.fin false 0)).get 0 :=
  clamp_is_min_max_and_resolves_to_hi.2 (vector_set (.fin false 5))
    (vector_set (.fin false 1)) (vector_set (.fin false 0)) 0 (by decide) (by decide)

/-! ## C7: mask reduction consistency -/

/-- C7 (amended): for all `a, b` with no NaN in any lane of either operand,
`vector_all_less_than(a, b) = !vector_any_greater_equal(a, b)`.  (A NaN lane
makes both reducers false — see the counterexample.) -/
theorem all_less_than_eq_not_any_greater_equal (a b : Vec4)
    (hax : a.x.isNan = false) (hbx : b.x.isNan = false)
    (hay : a.y.isNan = false) (hby : b.y.isNan = false)
    (haz : a.z.isNan = false) (hbz : b.z.isNan = false)
    (haw : a.w.isNan = false) (hbw : b.w.isNan = false) :
    vector_all_less_than a b = !vector_any_greater_equal a b := by
  unfold vector_all_less_than vector_any_greater_equal
  rw [show fpLt a.x b.x = !fpGe a.x b.x from fpLt_eq_not_fpLe hax hbx,
      show fpLt a.y b.y = !fpGe a.y b.y from fpLt_eq_not_fpLe hay hby,
      show fpLt a.z b.z = !fpGe a.z b.z from fpLt_eq_not_fpLe haz hbz,
      show fpLt a.w b.w = !fpGe a.w b.w from fpLt_eq_not_fpLe haw hbw]
  cases fpGe a.x b.x <;> cases fpGe a.y b.y <;> cases fpGe a.z b.z <;>
    cases fpGe a.w b.w <;> rfl

/-- C7 counterexample: with a NaN lane both `vector_all_less_than` and
`vector_any_greater_equal` are false, so the claimed equivalence fails. -/
theorem all_less_than_vs_any_greater_equal_nan :
    vector_all_less_than ⟨.nan, .fin false 0, .fin false 0, .fin false 0⟩
        (vector_set (.fin false 1)) = false ∧
      (!vector_any_greater_equal ⟨.nan, .fin false 0, .fin false 0, .fin false 0⟩
        (vector_set (.fin false 1))) = true := by
  exact ⟨by decide, by decide⟩

/-- Witness for C7 at concrete NaN-free vectors. -/
theorem all_less_than_eq_not_any_greater_equal_witness :
    vector_all_less_than vector_zero (vector_set (.fin false 1)) =
      !vector_any_greater_equal vector_zero (vector_set (.fin false 1)) :=
  all_less_than_eq_not_any_greater_equal vector_zero (vector_set (.fin false 1))
    (by decide) (by decide) (by decide) (by decide)
    (by decide) (by decide) (by decide) (by decide)

/-! ## C9: `vector_sign` is total, and maps a NaN lane to `-1.0` -/

/-- C9: each lane of `vector_sign` is `+1.0` or `-1.0` (never NaN), and a NaN
input lane yields `-1.0`, because the `input >= 0` comparison is false on
NaN. -/
theorem vector_sign_total_and_nan_negative (v : Vec4) (i : Fin 4) :
    ((vector_sign v).get i = .fin false 1 ∨ (vector_sign v).get i = .fin true 1) ∧
      ((v.get i).isNan = true → (vector_sign v).get i = .fin true 1) := by
  have hlane : (vector_sign v).get i
      = (if fpGe (v.get i) (Fp.fin false 0) then Fp.fin false 1 else Fp.fin true 1) := by
    fin_cases i <;> rfl
  constructor
  · rw [hlane]
    by_cases h : fpGe (v.get i) (Fp.fin false 0) = true
    · exact Or.inl (by rw [if_pos h])
    · exact Or.inr (by rw [if_neg h])
  · intro hnan
    have hv : v.get i = .nan := by
      cases hv : v.get i <;> simp_all [Fp.isNan]
    rw [hlane, hv]
    rfl

/-- Witness for C9 at a concrete NaN lane. -/
theorem vector_sign_total_and_nan_negative_witness :
    (vector_sign ⟨.nan, .fin false 0, .fin false 0, .fin false 0⟩).get 0 = Fp.fin true 1 :=
  (vector_sign_total_and_nan_negative ⟨.nan, .fin false 0, .fin false 0, .fin false 0⟩ 0).2
    (by decide)

/-! ## Bridge lemmas: the executable rational operations agree with the
library operations -/

theorem qadd_eq (a b : ℚ) : qadd a b = a + b := by
  have ha : ((a.den : ℤ) : ℚ) ≠ 0 := by
    exact_mod_cast Nat.cast_ne_zero.mpr a.den_nz
  have hb : ((b.den : ℤ) : ℚ) ≠ 0 := by
    exact_mod_cast Nat.cast_ne_zero.mpr b.den_nz
  rw [qadd, Rat.divInt_eq_div]
  conv_rhs => rw [← Rat.num_div_den a, ← Rat.num_div_den b]
  push_cast
  field_simp

theorem qsub_eq (a b : ℚ) : qsub a b = a - b := by
  rw [qsub, qadd_eq]; ring

theorem qmul_eq (a b : ℚ) : qmul a b = a * b := by
  have ha : ((a.den : ℤ) : ℚ) ≠ 0 := by
    exact_mod_cast Nat.cast_ne_zero.mpr a.den_nz
  have hb : ((b.den : ℤ) : ℚ) ≠ 0 := by
    exact_mod_cast Nat.cast_ne_zero.mpr b.den_nz
  rw [qmul, Rat.divInt_eq_div]
  conv_rhs => rw [← Rat.num_div_den a, ← Rat.num_div_den b]
  push_cast
  field_simp

/-! ## Rounding lemmas -/

theorem fpNeg_fpNeg (x : Fp) : fpNeg (fpNeg x) = x := by
  cases x <;> simp [fpNeg]

theorem roundPos_shape (q : ℚ) : roundPos q = .inf false ∨ ∃ m, roundPos q = .fin false m := by
  simp only [roundPos]
  split
  · exact Or.inl rfl
  · exact Or.inr ⟨_, rfl⟩

theorem roundQ_neg {x : ℚ} (hx : x ≠ 0) : roundQ (-x) = fpNeg (roundQ x) := by
  rcases lt_trichotomy x 0 with h | h | h
  · rw [show roundQ x = fpNeg (roundPos (-x)) by
      rw [roundQ, if_neg hx, if_neg (not_lt.mpr h.le)]]
    rw [show roundQ (-x) = roundPos (-x) by
      rw [roundQ, if_neg (neg_ne_zero.mpr hx), if_pos (by linarith)]]
    rw [fpNeg_fpNeg]
  · exact absurd h hx
  · rw [show roundQ x = roundPos x by rw [roundQ, if_neg hx, if_pos h]]
    rw [show roundQ (-x) = fpNeg (roundPos x) by
      rw [roundQ, if_neg (neg_ne_zero.mpr hx), if_neg (by linarith), neg_neg]]

theorem rep_pos {q : ℚ} (h : roundQ q = .fin false q) (h0 : q ≠ 0) :
    0 < q ∧ roundPos q = .fin false q := by
  rw [roundQ, if_neg h0] at h
  by_cases hq : 0 < q
  · rw [if_pos hq] at h; exact ⟨hq, h⟩
  · rw [if_neg hq] at h
    rcases roundPos_shape (-q) with hs | ⟨m, hs⟩
    · rw [hs] at h; exact absurd h (by simp [fpNeg])
    · rw [hs] at h; exact absurd h (by simp [fpNeg])

theorem roundQ_signed {t : Bool} {b : ℚ} (h : roundQ b = .fin false b) (hb : b ≠ 0) :
    roundQ (if t then -b else b) = .fin t b := by
  obtain ⟨hpos, -⟩ := rep_pos h hb
  cases t
  · simpa using h
  · show roundQ (-b) = Fp.fin true b
    rw [roundQ_neg hb, h]
    rfl

/-! ## C6: the safe `vector_normalize3` overload -/

/-- C6 (amended): when neither the squared 3-component length nor the
threshold is NaN, the fallback overload of `vector_normalize3` returns the
fallback exactly when the squared length is below the threshold, and
otherwise returns the input times the reciprocal square root of the squared
length.  (When the squared length is NaN the code also returns the fallback,
although NaN is not below the threshold — see the counterexample.) -/
theorem normalize3_fb_below_threshold_spec (input fallback : Vec4) (threshold : Fp)
    (h1 : (vector_length_squared3 input).isNan = false)
    (h2 : threshold.isNan = false) :
    vector_normalize3_fb input fallback threshold =
      if fpLt (vector_length_squared3 input) threshold then fallback
      else vector_mul_s input (fpSqrtReciprocal (vector_length_squared3 input)) := by
  unfold vector_normalize3_fb
  have hiff : fpLt (vector_length_squared3 input) threshold
      = !fpGe (vector_length_squared3 input) threshold :=
    fpLt_eq_not_fpLe h1 h2
  cases hge : fpGe (vector_length_squared3 input) threshold <;> simp [hiff, hge]

set_option maxRecDepth 100000 in
/-- C6 counterexample: a NaN input lane makes the squared length NaN, which is
not below the threshold, yet the code returns the fallback instead of
normalizing. -/
theorem normalize3_fb_nan_returns_fallback :
    fpLt (vector_length_squared3 ⟨.nan, .fin false 0, .fin false 0, .fin false 0⟩)
        normalize3_default_threshold = false ∧
      vector_normalize3_fb ⟨.nan, .fin false 0, .fin false 0, .fin false 0⟩
          (vector_set (.fin false 1)) normalize3_default_threshold
        = vector_set (.fin false 1) ∧
      vector_mul_s ⟨.nan, .fin false 0, .fin false 0, .fin false 0⟩
          (fpSqrtReciprocal (vector_length_squared3
            ⟨.nan, .fin false 0, .fin false 0, .fin false 0⟩))
        ≠ vector_set (.fin false 1) := by
  exact ⟨by decide, by decide, by decide⟩

set_option maxRecDepth 100000 in
/-- Witness for C6 at the unit vector and the default threshold. -/
theorem normalize3_fb_below_threshold_spec_witness :
    vector_normalize3_fb ⟨.fin false 1, .fin false 0, .fin false 0, .fin false 0⟩
        (vector_set (.fin false 0)) normalize3_default_threshold =
      if fpLt (vector_length_squared3
            ⟨.fin false 1, .fin false 0, .fin false 0, .fin false 0⟩)
          normalize3_default_threshold then vector_set (.fin false 0)
      else vector_mul_s ⟨.fin false 1, .fin false 0, .fin false 0, .fin false 0⟩
        (fpSqrtReciprocal (vector_length_squared3
          ⟨.fin false 1, .fin false 0, .fin false 0, .fin false 0⟩)) :=
  normalize3_fb_below_threshold_spec
    ⟨.fin false 1, .fin false 0, .fin false 0, .fin false 0⟩
    (vector_set (.fin false 0)) normalize3_default_threshold (by decide) (by decide)

/-! ## C8: lerp boundary values -/

theorem fpMul_fin_one {t : Bool} {b : ℚ} (hrep : roundQ b = .fin false b) :
    fpMul (.fin t b) (.fin false 1) = .fin t b := by
  by_cases hb : b = 0
  · subst hb; cases t <;> rfl
  · obtain ⟨-, hrp⟩ := rep_pos hrep hb
    simp only [fpMul]
    rw [if_neg (by simp [hb])]
    have h1 : qmul b 1 = b := by rw [qmul_eq, mul_one]
    rw [h1, hrp]
    cases t <;> rfl

theorem fpMul_fin_zero {t : Bool} {b : ℚ} :
    fpMul (.fin t b) (.fin false 0) = .fin t 0 := by
  simp only [fpMul]
  rw [if_pos (by simp)]
  cases t <;> rfl

theorem fpAdd_fin_zero_right {s u : Bool} {q : ℚ} (hq : q ≠ 0)
    (hrep : roundQ q = .fin false q) : fpAdd (.fin s q) (.fin u 0) = .fin s q := by
  simp only [fpAdd]
  have hx : qadd (if s then -q else q) (if u then -(0 : ℚ) else 0)
      = (if s then -q else q) := by
    rw [qadd_eq]; cases u <;> simp
  rw [hx, if_neg (by cases s <;> simpa using hq)]
  exact roundQ_signed hrep hq

theorem fpAdd_fin_zero_left {u s : Bool} {q : ℚ} (hq : q ≠ 0)
    (hrep : roundQ q = .fin false q) : fpAdd (.fin u 0) (.fin s q) = .fin s q := by
  simp only [fpAdd]
  have hx : qadd (if u then -(0 : ℚ) else 0) (if s then -q else q)
      = (if s then -q else q) := by
    rw [qadd_eq]; cases u <;> simp
  rw [hx, if_neg (by cases s <;> simpa using hq)]
  exact roundQ_signed hrep hq

theorem fpAdd_zeros (u v : Bool) : fpAdd (.fin u 0) (.fin v 0) = .fin (u && v) 0 := by
  simp only [fpAdd]
  have hx : qadd (if u then -(0 : ℚ) else 0) (if v then -(0 : ℚ) else 0) = 0 := by
    rw [qadd_eq]; cases u <;> cases v <;> simp
  rw [hx, if_pos rfl]

theorem fpSub_self_fin (s : Bool) (q : ℚ) : fpSub (.fin s q) (.fin s q) = .fin false 0 := by
  show fpAdd (.fin s q) (.fin (!s) q) = .fin false 0
  simp only [fpAdd]
  have hx : qadd (if s then -q else q) (if !s then -q else q) = 0 := by
    rw [qadd_eq]; cases s <;> simp
  rw [hx, if_pos rfl]
  cases s <;> rfl

theorem finiteRep_shape {x : Fp} (h : finiteRep x = true) :
    ∃ t q, x = Fp.fin t q ∧ roundQ q = .fin false q := by
  cases x with
  | nan => simp [finiteRep, Fp.isFinite] at h
  | inf s => simp [finiteRep, Fp.isFinite] at h
  | fin t q =>
    refine ⟨t, q, rfl, ?_⟩
    simpa [finiteRep, Fp.isFinite, fpRep] using h

theorem lerp_lane_zero {s e : Fp} (hs : finiteRep s = true) (he : finiteRep e = true) :
    fpEq (fpAdd (fpMul e (.fin false 0)) (fpSub s (fpMul s (.fin false 0)))) s = true := by
  obtain ⟨ts, qs, rfl, hreps⟩ := finiteRep_shape hs
  obtain ⟨te, qe, rfl, -⟩ := finiteRep_shape he
  rw [fpMul_fin_zero, fpMul_fin_zero]
  by_cases hq : qs = 0
  · subst hq
    rw [fpSub_self_fin, fpAdd_zeros]
    cases ts <;> simp [fpEq]
  · rw [show fpSub (Fp.fin ts qs) (Fp.fin ts 0) = fpAdd (Fp.fin ts qs) (Fp.fin (!ts) 0)
        from rfl]
    rw [fpAdd_fin_zero_right hq hreps, fpAdd_fin_zero_left hq hreps]
    simp [fpEq]

theorem lerp_lane_one {s e : Fp} (hs : finiteRep s = true) (he : finiteRep e = true) :
    fpEq (fpAdd (fpMul e (.fin false 1)) (fpSub s (fpMul s (.fin false 1)))) e = true := by
  obtain ⟨ts, qs, rfl, hreps⟩ := finiteRep_shape hs
  obtain ⟨te, qe, rfl, hrepe⟩ := finiteRep_shape he
  rw [fpMul_fin_one hrepe, fpMul_fin_one hreps]
  rw [fpSub_self_fin]
  by_cases hqe : qe = 0
  · subst hqe
    rw [fpAdd_zeros]
    cases te <;> simp [fpEq]
  · rw [fpAdd_fin_zero_right hqe hrepe]
    simp [fpEq]

/-- C8 (amended): for vectors of finite (representable) lanes, each lane of
`vector_lerp(start, end, 0.0)` is IEEE-equal (`==`) to the corresponding lane
of `start`, and each lane of `vector_lerp(start, end, 1.0)` is IEEE-equal to
the corresponding lane of `end`.  (IEEE equality identifies `-0.0` with
`+0.0`: a `-0.0` start lane comes back as `+0.0`.  With an infinite or NaN
lane the identity fails — see the counterexample.) -/
theorem vector_lerp_boundaries (s e : Vec4)
    (hs : vecFiniteRep s = true) (he : vecFiniteRep e = true) (i : Fin 4) :
    fpEq ((vector_lerp s e (.fin false 0)).get i) (s.get i) = true ∧
      fpEq ((vector_lerp s e (.fin false 1)).get i) (e.get i) = true := by
  have hsx : finiteRep s.x = true := by
    unfold vecFiniteRep at hs; simp_all
  have hsy : finiteRep s.y = true := by
    unfold vecFiniteRep at hs; simp_all
  have hsz : finiteRep s.z = true := by
    unfold vecFiniteRep at hs; simp_all
  have hsw : finiteRep s.w = true := by
    unfold vecFiniteRep at hs; simp_all
  have hex : finiteRep e.x = true := by
    unfold vecFiniteRep at he; simp_all
  have hey : finiteRep e.y = true := by
    unfold vecFiniteRep at he; simp_all
  have hez : finiteRep e.z = true := by
    unfold vecFiniteRep at he; simp_all
  have hew : finiteRep e.w = true := by
    unfold vecFiniteRep at he; simp_all
  fin_cases i
  · exact ⟨lerp_lane_zero hsx hex, lerp_lane_one hsx hex⟩
  · exact ⟨lerp_lane_zero hsy hey, lerp_lane_one hsy hey⟩
  · exact ⟨lerp_lane_zero hsz hez, lerp_lane_one hsz hez⟩
  · exact ⟨lerp_lane_zero hsw hew, lerp_lane_one hsw hew⟩

set_option maxRecDepth 100000 in
/-- C8 counterexample: with `end = +∞` and `alpha = 0`, the lane is
`0 * ∞ + (start - start * 0) = NaN`, which is neither structurally nor
IEEE-equal to the start lane. -/
theorem vector_lerp_zero_infinite_end :
    (vector_lerp (vector_set (.fin false 1)) (vector_set (.inf false)) (.fin false 0)).x
        = Fp.nan ∧
      (vector_lerp (vector_set (.fin false 1)) (vector_set (.inf false)) (.fin false 0)).x
        ≠ (vector_set (.fin false 1)).x ∧
      fpEq ((vector_lerp (vector_set (.fin false 1)) (vector_set (.inf false))
          (.fin false 0)).x) ((vector_set (.fin false 1)).x) = false := by
  exact ⟨by decide, by decide, by decide⟩

set_option maxRecDepth 100000 in
/-- Witness for C8 at `start = (1,1,1,1)`, `end = (2,2,2,2)`. -/
theorem vector_lerp_boundaries_witness :
    fpEq ((vector_lerp (vector_set (.fin false 1)) (vector_set (.fin false 2))
        (.fin false 0)).get 0) ((vector_set (.fin false 1)).get 0) = true :=
  (vector_lerp_boundaries (vector_set (.fin false 1)) (vector_set (.fin false 2))
    (by decide) (by decide) 0).1

/-! ## C10: `vector_distance3` is symmetric -/

theorem sq_fpNeg (z : Fp) : fpMul (fpNeg z) (fpNeg z) = fpMul z z := by
  cases z with
  | nan => rfl
  | inf s => cases s <;> rfl
  | fin s q => by_cases hq : q = 0 <;> cases s <;> simp [fpMul, fpNeg, hq]

theorem sq_zero_lane (u : Bool) : fpMul (Fp.fin u 0) (Fp.fin u 0) = Fp.fin false 0 := by
  cases u <;> rfl

theorem fpSub_swap (x y : Fp) :
    fpSub y x = fpNeg (fpSub x y) ∨
      (∃ u v : Bool, fpSub x y = .fin u 0 ∧ fpSub y x = .fin v 0) := by
  cases x with
  | nan => cases y <;> exact Or.inl rfl
  | inf s =>
    cases y with
    | nan => exact Or.inl rfl
    | inf t =>
      by_cases hst : s = t
      · subst hst; left
        cases s <;> rfl
      · left
        have ht : t = !s := by cases s <;> cases t <;> simp_all
        subst ht
        cases s <;> rfl
    | fin t b => exact Or.inl rfl
  | fin s a =>
    cases y with
    | nan => exact Or.inl rfl
    | inf t => exact Or.inl (by cases t <;> rfl)
    | fin t b =>
      have hvx : fpSub (Fp.fin s a) (Fp.fin t b)
          = (if (if s then -a else a) - (if t then -b else b) = 0
              then Fp.fin (s && !t) 0
              else roundQ ((if s then -a else a) - (if t then -b else b))) := by
        show fpAdd (Fp.fin s a) (Fp.fin (!t) b) = _
        simp only [fpAdd]
        have hx : qadd (if s then -a else a) (if !t then -b else b)
            = (if s then -a else a) - (if t then -b else b) := by
          rw [qadd_eq]; cases t <;> simp <;> ring
        rw [hx]
      have hvy : fpSub (Fp.fin t b) (Fp.fin s a)
          = (if (if t then -b else b) - (if s then -a else a) = 0
              then Fp.fin (t && !s) 0
              else roundQ ((if t then -b else b) - (if s then -a else a))) := by
        show fpAdd (Fp.fin t b) (Fp.fin (!s) a) = _
        simp only [fpAdd]
        have hx : qadd (if t then -b else b) (if !s then -a else a)
            = (if t then -b else b) - (if s then -a else a) := by
          rw [qadd_eq]; cases s <;> simp <;> ring
        rw [hx]
      by_cases hD : (if s then -a else a) - (if t then -b else b) = 0
      · right
        refine ⟨s && !t, t && !s, ?_, ?_⟩
        · rw [hvx, if_pos hD]
        · rw [hvy, if_pos (by linarith)]
      · left
        rw [hvx, hvy, if_neg hD, if_neg (by intro hc; exact hD (by linarith))]
        rw [show (if t then -b else b) - (if s then -a else a)
            = -((if s then -a else a) - (if t then -b else b)) by ring]
        exact roundQ_neg hD

theorem sq_fpSub_comm (x y : Fp) :
    fpMul (fpSub x y) (fpSub x y) = fpMul (fpSub y x) (fpSub y x) := by
  rcases fpSub_swap x y with h | ⟨u, v, hu, hv⟩
  · rw [h, sq_fpNeg]
  · rw [hu, hv, sq_zero_lane, sq_zero_lane]

theorem dot3_sub_symm (a b : Vec4) :
    vector_dot3 (vector_sub a b) (vector_sub a b)
      = vector_dot3 (vector_sub b a) (vector_sub b a) := by
  show fpAdd (fpAdd (fpMul (fpSub a.x b.x) (fpSub a.x b.x))
        (fpMul (fpSub a.y b.y) (fpSub a.y b.y)))
      (fpMul (fpSub a.z b.z) (fpSub a.z b.z))
    = fpAdd (fpAdd (fpMul (fpSub b.x a.x) (fpSub b.x a.x))
        (fpMul (fpSub b.y a.y) (fpSub b.y a.y)))
      (fpMul (fpSub b.z a.z) (fpSub b.z a.z))
  rw [sq_fpSub_comm a.x b.x, sq_fpSub_comm a.y b.y, sq_fpSub_comm a.z b.z]

/-- C10: `vector_distance3(a, b) = vector_distance3(b, a)` for every pair of
vectors: the squares in the 3-component dot product cancel the sign of the
lanewise differences, so both sides take the square root of identical
values. -/
theorem vector_distance3_symmetric (a b : Vec4) :
    vector_distance3 a b = vector_distance3 b a := by
  have h := dot3_sub_symm a b
  unfold vector_distance3 vector_length3 vector_length_squared3
  rw [h]

end RTM
